import Mathlib

/-!
Verification of the audio-segmentation engine in `src/main.rs` (audiomh).

The development shallowly embeds the program:
* `compute_rms` embeds the RMS energy estimator (`compute_rms`, main.rs:11-17),
  with `f64` idealised as `ℝ`.
* `filter_transcription` embeds the transcription post-filter
  (`filter_transcription`, main.rs:307-330) over `String`/`List Char`;
  Rust's Unicode `char::is_alphabetic` and `char::is_whitespace` are modelled
  by Lean's ASCII `Char.isAlpha` / `Char.isWhitespace`, which agree with Rust
  on ASCII input; `str::trim`, byte length (`str::len`) and
  `eq_ignore_ascii_case` are embedded exactly.
* `stepBlock` / `stepTick` / `runFrom` embed the adaptive-chunking state
  machine of the main loop (main.rs:116-254): state variables `in_speech`,
  `current_chunk`, `silence_samples`; events are received blocks, receive
  timeouts (idle ticks), and channel disconnection.  The fallible WAV encoder
  `create_wav_in_memory` is abstracted by a success oracle
  `encodeOk : List Int → Bool`; a finalized segment is emitted (handed to the
  spawned export task) exactly when the encoder succeeds on it.
  The `f64` comparison `rms >= energy_threshold` is embedded by the decidable
  test `rmsGeThreshold` over a rational threshold; the bridge lemma
  `rmsGeThreshold_iff` proves it equivalent to the real comparison against
  `compute_rms`.
-/

/-! ## Energy estimator (main.rs:11-17) -/

/-- Sum of squared samples, the `sum_sq` accumulator of `compute_rms`
(main.rs:15). -/
def sumSq (samples : List Int) : Int :=
  (samples.map (fun s => s * s)).sum

/-- RMS energy of a block of samples (`compute_rms`, main.rs:11-17): zero for
an empty block, otherwise the square root of the sum of squares divided by the
sample count.  `f64` arithmetic is idealised as exact real arithmetic. -/
noncomputable def compute_rms (samples : List Int) : ℝ :=
  if samples = [] then 0
  else Real.sqrt ((sumSq samples : ℝ) / (samples.length : ℝ))

/-- Mean of the squared samples as an exact rational (0 for the empty block,
matching the early return of `compute_rms`). -/
def meanSq (samples : List Int) : ℚ :=
  if samples = [] then 0
  else (sumSq samples : ℚ) / (samples.length : ℚ)

/-- Decidable embedding of the `f64` comparison `rms >= energy_threshold`
(main.rs:125/132) for a rational threshold `t`, stated over the integer
numerator and denominator of `t ^ 2` so that it evaluates by kernel
reduction: the RMS of `b` is at least `t` iff `t ≤ 0`, or `b` is non-empty
and `(t ^ 2).num * b.length ≤ sumSq b * (t ^ 2).den` (equivalently
`t ^ 2 ≤ meanSq b`).  `rmsGeThreshold_iff` proves this test equivalent to
the real comparison `(t : ℝ) ≤ compute_rms b`. -/
def rmsGeThreshold (b : List Int) (t : ℚ) : Bool :=
  decide (t ≤ 0) ||
    (decide (b ≠ []) &&
      decide ((t ^ 2).num * (b.length : Int) ≤ sumSq b * ((t ^ 2).den : Int)))

/-! ## Transcription post-filter (main.rs:307-330) -/

/-- Embedding of Rust `str::trim` on the character list of a string: drop
whitespace from the front, then from the back. -/
def rustTrim (s : List Char) : List Char :=
  ((s.dropWhile Char.isWhitespace).reverse.dropWhile Char.isWhitespace).reverse

/-- UTF-8 byte length of a character list, embedding Rust `str::len`
(main.rs:318 measures bytes, not characters). -/
def utf8Len (s : List Char) : Nat :=
  (s.map Char.utf8Size).sum

/-- Embedding of Rust `str::eq_ignore_ascii_case`: equality after ASCII
lowercasing (Lean's `Char.toLower` lowercases exactly the ASCII range). -/
def eqIgnoreAsciiCase (a b : List Char) : Bool :=
  a.map Char.toLower == b.map Char.toLower

/-- The `unwanted` denylist of boilerplate phrases (main.rs:308-316). -/
def unwantedPhrases : List (List Char) :=
  ["Thank you for watching!".data,
   "Thank you for watching".data,
   "ご視聴ありがとうございました".data,
   "ご視聴ありがとうございました。".data,
   "¡Gracias por ver!".data,
   "시청해주셔서 감사합니다".data,
   "시청해주셔서 감사합니다!".data]

/-- Embedding of `filter_transcription` (main.rs:307-330): trim; discard if
empty or shorter than 3 bytes; discard if no character is alphabetic; discard
if the trimmed text equals a denylist phrase ASCII-case-insensitively;
otherwise return the trimmed text. -/
def filter_transcription (transcription : String) : Option String :=
  if (rustTrim transcription.data).isEmpty ∨ utf8Len (rustTrim transcription.data) < 3 then
    none
  else if (rustTrim transcription.data).all (fun c => !c.isAlpha) then none
  else if unwantedPhrases.any (fun p => eqIgnoreAsciiCase (rustTrim transcription.data) p) then
    none
  else some (String.mk (rustTrim transcription.data))

/-! ## Segmentation state machine (main.rs:116-254) -/

/-- Tuning constants of the adaptive chunker (main.rs:102-110), already
converted to sample counts as in the source; the energy threshold is kept as
an exact rational (300.0 in the source). -/
structure Config where
  energy_threshold : ℚ
  min_speech_samples : Nat
  silence_duration_samples : Nat
  max_chunk_samples : Nat
  silence_increment : Nat
deriving DecidableEq, Repr

/-- Mutable loop state (main.rs:116-118): the speech flag, the pending chunk
and the consecutive-quiet-sample counter. -/
structure SegState where
  in_speech : Bool
  current_chunk : List Int
  silence_samples : Nat
deriving DecidableEq, Repr

/-- Initial state of the loop, also the state restored by every reset
(`current_chunk.clear(); in_speech = false; silence_samples = 0`). -/
def resetState : SegState := ⟨false, [], 0⟩

/-- Forced max-duration flush (main.rs:175-208): if the pending chunk has
reached `max_chunk_samples`, encode and dispatch it (drop it when encoding
fails) and reset; otherwise leave the state unchanged.  No minimum-duration
check is made on this path. -/
def maxCheck (cfg : Config) (encodeOk : List Int → Bool) (st : SegState) :
    SegState × List (List Int) :=
  if st.current_chunk.length ≥ cfg.max_chunk_samples then
    if encodeOk st.current_chunk then (resetState, [st.current_chunk])
    else (resetState, [])
  else (st, [])

/-- Updated quiet counter after a block while accumulating (main.rs:132-136):
reset to zero on a loud block, otherwise increased by the block's sample
count. -/
def silNext (cfg : Config) (st : SegState) (block : List Int) : Nat :=
  if rmsGeThreshold block cfg.energy_threshold then 0
  else st.silence_samples + block.length

/-- Processing of one received block (main.rs:122-209).  In `Idle`
(`!in_speech`): a loud block starts accumulation, a quiet one is discarded.
In `Accumulating`: the block is appended unconditionally, the quiet counter
is advanced or reset, then the silence-finalize check runs (an encode error
there `continue`s, skipping the max check), and finally the max-duration
check runs on the resulting state. -/
def stepBlock (cfg : Config) (encodeOk : List Int → Bool) (st : SegState)
    (block : List Int) : SegState × List (List Int) :=
  if st.in_speech = false then
    if rmsGeThreshold block cfg.energy_threshold then
      (⟨true, st.current_chunk ++ block, 0⟩, [])
    else (st, [])
  else
    if silNext cfg st block ≥ cfg.silence_duration_samples then
      if (st.current_chunk ++ block).length ≥ cfg.min_speech_samples then
        if encodeOk (st.current_chunk ++ block) then
          ((maxCheck cfg encodeOk resetState).1,
            (st.current_chunk ++ block) :: (maxCheck cfg encodeOk resetState).2)
        else (resetState, [])
      else maxCheck cfg encodeOk resetState
    else maxCheck cfg encodeOk ⟨true, st.current_chunk ++ block, silNext cfg st block⟩

/-- Processing of one receive timeout (main.rs:211-251).  A tick in `Idle` is
a no-op; in `Accumulating` it adds `silence_increment` to the quiet counter
and runs the silence-finalize check (no max-duration check on this path). -/
def stepTick (cfg : Config) (encodeOk : List Int → Bool) (st : SegState) :
    SegState × List (List Int) :=
  if st.in_speech then
    if st.silence_samples + cfg.silence_increment ≥ cfg.silence_duration_samples then
      if st.current_chunk.length ≥ cfg.min_speech_samples then
        if encodeOk st.current_chunk then (resetState, [st.current_chunk])
        else (resetState, [])
      else (resetState, [])
    else
      (⟨true, st.current_chunk, st.silence_samples + cfg.silence_increment⟩, [])
  else (st, [])

/-- Inputs of the main loop: a received sample block, a receive timeout, and
disconnection of the upstream channel. -/
inductive AudioEvent where
  | block : List Int → AudioEvent
  | tick : AudioEvent
  | closed : AudioEvent
deriving DecidableEq, Repr

/-- The main loop (main.rs:120-254) run from a given state over a list of
events, returning the final state and the finalized segments dispatched, in
order.  Disconnection breaks out of the loop at once: later events are not
processed and the pending chunk is not flushed. -/
def runFrom (cfg : Config) (encodeOk : List Int → Bool) :
    SegState → List AudioEvent → SegState × List (List Int)
  | st, [] => (st, [])
  | st, AudioEvent.closed :: _ => (st, [])
  | st, AudioEvent.block b :: rest =>
    let r := stepBlock cfg encodeOk st b
    let r2 := runFrom cfg encodeOk r.1 rest
    (r2.1, r.2 ++ r2.2)
  | st, AudioEvent.tick :: rest =>
    let r := stepTick cfg encodeOk st
    let r2 := runFrom cfg encodeOk r.1 rest
    (r2.1, r.2 ++ r2.2)

/-- The main loop started from the initial state (main.rs:116-118). -/
def run (cfg : Config) (encodeOk : List Int → Bool) (evs : List AudioEvent) :
    SegState × List (List Int) :=
  runFrom cfg encodeOk resetState evs

/-- Sample count carried by an event: the block's length for a block event,
zero for ticks and disconnection. -/
def eventBlockLen : AudioEvent → Nat
  | AudioEvent.block b => b.length
  | AudioEvent.tick => 0
  | AudioEvent.closed => 0

/-- Bound on the lengths of the blocks occurring in an event list. -/
def BlockBound (B : Nat) (evs : List AudioEvent) : Prop :=
  ∀ e ∈ evs, eventBlockLen e ≤ B

instance (B : Nat) (evs : List AudioEvent) : Decidable (BlockBound B evs) :=
  List.decidableBAll _ evs

/-- State invariant maintained by the loop when every block has length at
most `B`: the pending chunk is empty while idle, and its length never
exceeds `max (max_chunk_samples - 1) B` (the max-duration check bounds it by
`max_chunk_samples - 1` after any block processed while accumulating, but the
speech-onset block appended in the idle branch is unchecked). -/
def chunkInv (cfg : Config) (B : Nat) (st : SegState) : Prop :=
  (st.in_speech = false → st.current_chunk = []) ∧
  st.current_chunk.length ≤ max (cfg.max_chunk_samples - 1) B

/-! ## Helper lemmas -/

theorem sumSq_nonneg (b : List Int) : 0 ≤ sumSq b := by
  unfold sumSq
  induction b with
  | nil => simp
  | cons a l ih =>
    simp only [List.map_cons, List.sum_cons]
    exact add_nonneg (mul_self_nonneg a) ih

theorem meanSq_nonneg (b : List Int) : 0 ≤ meanSq b := by
  unfold meanSq
  split
  · exact le_refl 0
  · apply div_nonneg
    · exact_mod_cast sumSq_nonneg b
    · exact_mod_cast Nat.zero_le _

theorem compute_rms_eq_sqrt_meanSq (b : List Int) :
    compute_rms b = Real.sqrt ((meanSq b : ℝ)) := by
  unfold compute_rms meanSq
  split
  · simp
  · push_cast
    rfl

theorem rmsGeThreshold_eq_true_iff (b : List Int) (t : ℚ) :
    rmsGeThreshold b t = true ↔ (t ≤ 0 ∨ t ^ 2 ≤ meanSq b) := by
  unfold rmsGeThreshold
  rw [Bool.or_eq_true, Bool.and_eq_true, decide_eq_true_iff, decide_eq_true_iff,
    decide_eq_true_iff]
  by_cases ht : t ≤ 0
  · simp [ht]
  · simp only [ht, false_or]
    by_cases hb : b = []
    · subst hb
      simp only [meanSq, if_pos rfl]
      constructor
      · rintro ⟨hne, -⟩
        exact absurd rfl hne
      · intro h
        exact absurd h (not_le.mpr (pow_pos (not_le.mp ht) 2))
    · have hn : (0 : ℚ) < ((b.length : ℕ) : ℚ) := by
        exact_mod_cast List.length_pos.mpr hb
      have key : ∀ q : ℚ, q * ((b.length : ℕ) : ℚ) ≤ ((sumSq b : ℤ) : ℚ) ↔
          q.num * (b.length : ℤ) ≤ sumSq b * (q.den : ℤ) := by
        intro q
        have hden : (0 : ℚ) < ((q.den : ℕ) : ℚ) := by
          exact_mod_cast Rat.den_pos q
        conv_lhs =>
          rw [show q = ((q.num : ℤ) : ℚ) / ((q.den : ℕ) : ℚ) from
            (Rat.num_div_den q).symm]
        rw [div_mul_eq_mul_div, div_le_iff₀ hden]
        exact_mod_cast Iff.rfl
      rw [meanSq, if_neg hb, le_div_iff₀ hn, key]
      simp [hb]

theorem rmsGeThreshold_iff (b : List Int) (t : ℚ) :
    rmsGeThreshold b t = true ↔ (t : ℝ) ≤ compute_rms b := by
  rw [compute_rms_eq_sqrt_meanSq, rmsGeThreshold_eq_true_iff]
  constructor
  · rintro (h | h)
    · calc (t : ℝ) ≤ 0 := by exact_mod_cast h
        _ ≤ Real.sqrt (meanSq b : ℝ) := Real.sqrt_nonneg _
    · rcases le_or_lt t 0 with ht | ht
      · calc (t : ℝ) ≤ 0 := by exact_mod_cast ht
          _ ≤ Real.sqrt (meanSq b : ℝ) := Real.sqrt_nonneg _
      · rw [Real.le_sqrt' (by exact_mod_cast ht)]
        exact_mod_cast h
  · intro h
    rcases le_or_lt t 0 with ht | ht
    · exact Or.inl ht
    · right
      rw [Real.le_sqrt' (by exact_mod_cast ht)] at h
      exact_mod_cast h

theorem chunkInv_resetState (cfg : Config) (B : Nat) : chunkInv cfg B resetState :=
  ⟨fun _ => rfl, by simp [resetState]⟩

theorem maxCheck_state_reset_or_small (cfg : Config) (encodeOk : List Int → Bool)
    (st : SegState) :
    (maxCheck cfg encodeOk st).1 = resetState ∨
    ((maxCheck cfg encodeOk st).1 = st ∧
      st.current_chunk.length < cfg.max_chunk_samples) := by
  unfold maxCheck
  split_ifs with h1 h2
  · exact Or.inl rfl
  · exact Or.inl rfl
  · exact Or.inr ⟨rfl, by omega⟩

theorem maxCheck_out (cfg : Config) (encodeOk : List Int → Bool) (st : SegState) :
    ∀ seg ∈ (maxCheck cfg encodeOk st).2,
      seg = st.current_chunk ∧ cfg.max_chunk_samples ≤ seg.length := by
  unfold maxCheck
  split_ifs with h1 h2
  · intro seg hseg
    rw [List.mem_singleton] at hseg
    subst hseg
    exact ⟨rfl, h1⟩
  · intro seg hseg
    simp at hseg
  · intro seg hseg
    simp at hseg

theorem maxCheck_resetState_state (cfg : Config) (encodeOk : List Int → Bool) :
    (maxCheck cfg encodeOk resetState).1 = resetState := by
  rcases maxCheck_state_reset_or_small cfg encodeOk resetState with h | ⟨h, _⟩ <;>
    exact h

theorem stepBlock_inv (cfg : Config) (encodeOk : List Int → Bool) (B : Nat)
    (st : SegState) (b : List Int) (h : chunkInv cfg B st) (hb : b.length ≤ B) :
    chunkInv cfg B (stepBlock cfg encodeOk st b).1 := by
  unfold stepBlock
  split_ifs with h1 h2 h3 h4 h5
  · refine ⟨fun hf => by simp at hf, ?_⟩
    rw [h.1 h1]
    simp only [List.nil_append]
    exact le_trans hb (le_max_right _ _)
  · exact h
  · show chunkInv cfg B (maxCheck cfg encodeOk resetState).1
    rw [maxCheck_resetState_state]
    exact chunkInv_resetState cfg B
  · exact chunkInv_resetState cfg B
  · rw [maxCheck_resetState_state]
    exact chunkInv_resetState cfg B
  · rcases maxCheck_state_reset_or_small cfg encodeOk
        ⟨true, st.current_chunk ++ b, silNext cfg st b⟩ with hm | ⟨hm, hlen⟩
    · rw [hm]
      exact chunkInv_resetState cfg B
    · rw [hm]
      refine ⟨fun hf => by simp at hf, ?_⟩
      simp only at hlen ⊢
      omega

theorem stepBlock_out (cfg : Config) (encodeOk : List Int → Bool) (B : Nat)
    (st : SegState) (b : List Int) (h : chunkInv cfg B st) (hb : b.length ≤ B) :
    ∀ seg ∈ (stepBlock cfg encodeOk st b).2,
      (cfg.min_speech_samples ≤ cfg.max_chunk_samples →
        cfg.min_speech_samples ≤ seg.length) ∧
      seg.length ≤ max (cfg.max_chunk_samples - 1) B + B := by
  have hchunk : (st.current_chunk ++ b).length ≤
      max (cfg.max_chunk_samples - 1) B + B := by
    rw [List.length_append]
    have := h.2
    omega
  unfold stepBlock
  split_ifs with h1 h2 h3 h4 h5
  · intro seg hseg
    simp at hseg
  · intro seg hseg
    simp at hseg
  · intro seg hseg
    rcases List.mem_cons.mp hseg with hs | hs
    · subst hs
      exact ⟨fun _ => h4, hchunk⟩
    · obtain ⟨hs1, hs2⟩ := maxCheck_out cfg encodeOk resetState seg hs
      subst hs1
      refine ⟨fun hmM => ?_, by simp [resetState]⟩
      simp only [resetState] at hs2
      simp only [List.length_nil] at hs2 ⊢
      omega
  · intro seg hseg
    simp at hseg
  · intro seg hseg
    obtain ⟨hs1, hs2⟩ := maxCheck_out cfg encodeOk resetState seg hseg
    subst hs1
    refine ⟨fun hmM => ?_, by simp [resetState]⟩
    simp only [resetState] at hs2
    simp only [List.length_nil] at hs2 ⊢
    omega
  · intro seg hseg
    obtain ⟨hs1, hs2⟩ := maxCheck_out cfg encodeOk
      ⟨true, st.current_chunk ++ b, silNext cfg st b⟩ seg hseg
    simp only at hs1
    subst hs1
    exact ⟨fun hmM => le_trans hmM hs2, hchunk⟩

theorem stepTick_inv (cfg : Config) (encodeOk : List Int → Bool) (B : Nat)
    (st : SegState) (h : chunkInv cfg B st) :
    chunkInv cfg B (stepTick cfg encodeOk st).1 := by
  unfold stepTick
  split_ifs with h1 h2 h3 h4
  · exact chunkInv_resetState cfg B
  · exact chunkInv_resetState cfg B
  · exact chunkInv_resetState cfg B
  · exact ⟨fun hf => by simp at hf, h.2⟩
  · exact h

theorem stepTick_out (cfg : Config) (encodeOk : List Int → Bool) (B : Nat)
    (st : SegState) (h : chunkInv cfg B st) :
    ∀ seg ∈ (stepTick cfg encodeOk st).2,
      (cfg.min_speech_samples ≤ cfg.max_chunk_samples →
        cfg.min_speech_samples ≤ seg.length) ∧
      seg.length ≤ max (cfg.max_chunk_samples - 1) B + B := by
  unfold stepTick
  split_ifs with h1 h2 h3 h4
  · intro seg hseg
    rw [List.mem_singleton] at hseg
    subst hseg
    refine ⟨fun _ => h3, ?_⟩
    have := h.2
    omega
  all_goals intro seg hseg
  all_goals simp at hseg

theorem runFrom_inv (cfg : Config) (encodeOk : List Int → Bool) (B : Nat)
    (evs : List AudioEvent) :
    ∀ st : SegState, chunkInv cfg B st → BlockBound B evs →
      chunkInv cfg B (runFrom cfg encodeOk st evs).1 ∧
      ∀ seg ∈ (runFrom cfg encodeOk st evs).2,
        (cfg.min_speech_samples ≤ cfg.max_chunk_samples →
          cfg.min_speech_samples ≤ seg.length) ∧
        seg.length ≤ max (cfg.max_chunk_samples - 1) B + B := by
  induction evs with
  | nil =>
    intro st h _
    exact ⟨h, by simp [runFrom]⟩
  | cons e evs ih =>
    intro st h hB
    have hBtail : BlockBound B evs := fun x hx => hB x (List.mem_cons_of_mem _ hx)
    cases e with
    | closed =>
      exact ⟨h, by simp [runFrom]⟩
    | block b =>
      have hb : b.length ≤ B := hB (AudioEvent.block b) (List.mem_cons_self _ _)
      have hstep := stepBlock_inv cfg encodeOk B st b h hb
      have hout := stepBlock_out cfg encodeOk B st b h hb
      obtain ⟨hrec1, hrec2⟩ := ih (stepBlock cfg encodeOk st b).1 hstep hBtail
      refine ⟨hrec1, ?_⟩
      intro seg hseg
      simp only [runFrom, List.mem_append] at hseg
      rcases hseg with hs | hs
      · exact hout seg hs
      · exact hrec2 seg hs
    | tick =>
      have hstep := stepTick_inv cfg encodeOk B st h
      have hout := stepTick_out cfg encodeOk B st h
      obtain ⟨hrec1, hrec2⟩ := ih (stepTick cfg encodeOk st).1 hstep hBtail
      refine ⟨hrec1, ?_⟩
      intro seg hseg
      simp only [runFrom, List.mem_append] at hseg
      rcases hseg with hs | hs
      · exact hout seg hs
      · exact hrec2 seg hs

theorem rustTrim_eq_rdropWhile (l : List Char) :
    rustTrim l =
      List.rdropWhile Char.isWhitespace (List.dropWhile Char.isWhitespace l) := rfl

theorem dropWhile_rdropWhile_dropWhile (p : α → Bool) (l : List α) :
    List.dropWhile p (List.rdropWhile p (List.dropWhile p l)) =
      List.rdropWhile p (List.dropWhile p l) := by
  rw [List.dropWhile_eq_self_iff]
  intro hl
  obtain ⟨t, ht⟩ := List.rdropWhile_prefix p (List.dropWhile p l)
  have hX : 0 < (List.dropWhile p l).length := by
    rw [← ht, List.length_append]
    omega
  have h0 := List.dropWhile_get_zero_not p l hX
  have heq : (List.dropWhile p l)[0]? =
      (List.rdropWhile p (List.dropWhile p l))[0]? := by
    conv_lhs => rw [← ht]
    exact List.getElem?_append_left hl
  rw [List.getElem?_eq_getElem hX, List.getElem?_eq_getElem hl] at heq
  have heq' := Option.some.inj heq
  simp only [List.get_eq_getElem] at h0 ⊢
  rw [← heq']
  exact h0

theorem rustTrim_idem (l : List Char) : rustTrim (rustTrim l) = rustTrim l := by
  rw [rustTrim_eq_rdropWhile, rustTrim_eq_rdropWhile,
    dropWhile_rdropWhile_dropWhile, List.rdropWhile_idempotent]

/-! ## Claim theorems -/

/-- C1 counterexample: with threshold 0, min 0 samples, silence bound 1000,
max 2 samples, a 1-sample loud block followed by a 3-sample loud block makes
the machine emit a 4-sample segment, longer than the configured maximum of 2,
even though min ≤ max holds. -/
theorem emitted_segment_exceeds_max :
    (⟨0, 0, 1000, 2, 1⟩ : Config).min_speech_samples ≤
      (⟨0, 0, 1000, 2, 1⟩ : Config).max_chunk_samples ∧
    ∃ seg ∈ (run ⟨0, 0, 1000, 2, 1⟩ (fun _ => true)
        [AudioEvent.block [1], AudioEvent.block [1, 1, 1]]).2,
      (⟨0, 0, 1000, 2, 1⟩ : Config).max_chunk_samples < seg.length := by
  decide

/-- C1 (amended): with min ≤ max, every emitted segment has length at least
`min_speech_samples`; the emitted length can exceed `max_chunk_samples`
(the flush fires only after a whole block is appended), but when every input
block has length at most `B` it is bounded by
`max (max_chunk_samples - 1) B + B`. -/
theorem emitted_segment_bounds (cfg : Config) (encodeOk : List Int → Bool)
    (B : Nat) (evs : List AudioEvent)
    (hmM : cfg.min_speech_samples ≤ cfg.max_chunk_samples)
    (hB : BlockBound B evs) :
    ∀ seg ∈ (run cfg encodeOk evs).2,
      cfg.min_speech_samples ≤ seg.length ∧
      seg.length ≤ max (cfg.max_chunk_samples - 1) B + B := by
  intro seg hseg
  obtain ⟨-, hout⟩ :=
    runFrom_inv cfg encodeOk B evs resetState (chunkInv_resetState cfg B) hB
  obtain ⟨hlow, hhigh⟩ := hout seg hseg
  exact ⟨hlow hmM, hhigh⟩

/-- C1 witness: a concrete run through `emitted_segment_bounds`. -/
theorem emitted_segment_bounds_witness :
    ((⟨0, 4, 3, 100, 3⟩ : Config).min_speech_samples ≤
        (⟨0, 4, 3, 100, 3⟩ : Config).max_chunk_samples ∧
      BlockBound 4 [AudioEvent.block [9, 9, 9, 9], AudioEvent.tick] ∧
      [9, 9, 9, 9] ∈ (run ⟨0, 4, 3, 100, 3⟩ (fun _ => true)
        [AudioEvent.block [9, 9, 9, 9], AudioEvent.tick]).2) ∧
    (⟨0, 4, 3, 100, 3⟩ : Config).min_speech_samples ≤
        ([9, 9, 9, 9] : List Int).length ∧
      ([9, 9, 9, 9] : List Int).length ≤
        max ((⟨0, 4, 3, 100, 3⟩ : Config).max_chunk_samples - 1) 4 + 4 :=
  ⟨⟨by decide, by decide, by decide⟩,
    emitted_segment_bounds ⟨0, 4, 3, 100, 3⟩ (fun _ => true) 4
      [AudioEvent.block [9, 9, 9, 9], AudioEvent.tick]
      (by decide) (by decide) [9, 9, 9, 9] (by decide)⟩

/-- C2 counterexample: with max 2 samples, a single loud 3-sample block
received while idle leaves a 3-sample pending chunk — the bound is exceeded
and no flush was forced (the idle branch performs no max-duration check). -/
theorem pending_length_exceeds_max :
    (⟨0, 0, 1000, 2, 1⟩ : Config).max_chunk_samples <
      (run ⟨0, 0, 1000, 2, 1⟩ (fun _ => true)
        [AudioEvent.block [1, 1, 1]]).1.current_chunk.length := by
  decide

/-- C2 (amended): when every input block has length at most `B`, the pending
chunk length after processing any input sequence is at most
`max (max_chunk_samples - 1) B`; moreover a block processed while
accumulating always forces a flush when the bound is reached: if the state
is still accumulating afterwards, the pending length is strictly below
`max_chunk_samples`.  The bound `max_chunk_samples` itself can be exceeded
transiently by the unchecked speech-onset block appended in the idle
branch. -/
theorem pending_length_invariant (cfg : Config) (encodeOk : List Int → Bool)
    (B : Nat) (evs : List AudioEvent) (hB : BlockBound B evs) :
    (run cfg encodeOk evs).1.current_chunk.length ≤
      max (cfg.max_chunk_samples - 1) B ∧
    ∀ st : SegState, ∀ b : List Int, st.in_speech = true →
      (stepBlock cfg encodeOk st b).1.in_speech = true →
      (stepBlock cfg encodeOk st b).1.current_chunk.length <
        cfg.max_chunk_samples := by
  constructor
  · obtain ⟨hinv, -⟩ :=
      runFrom_inv cfg encodeOk B evs resetState (chunkInv_resetState cfg B) hB
    exact hinv.2
  · intro st b hsp hsp'
    unfold stepBlock at hsp' ⊢
    split_ifs at hsp' ⊢ with h1 h2 h3 h4 h5
    · rw [hsp] at h1
      simp at h1
    · rw [hsp] at h1
      simp at h1
    · rw [maxCheck_resetState_state] at hsp'
      simp [resetState] at hsp'
    · simp [resetState] at hsp'
    · rw [maxCheck_resetState_state] at hsp'
      simp [resetState] at hsp'
    · rcases maxCheck_state_reset_or_small cfg encodeOk
          ⟨true, st.current_chunk ++ b, silNext cfg st b⟩ with hm | ⟨hm, hlen⟩
      · rw [hm] at hsp'
        simp [resetState] at hsp'
      · rw [hm]
        exact hlen

/-- C3 counterexample: with min 10 samples and max 2 samples, the forced
max-duration flush dispatches a 4-sample segment even though it is shorter
than the minimum speech duration — the claimed minimum-duration gate does
not exist on this path. -/
theorem max_flush_dispatches_short_segment :
    ∃ seg ∈ (run ⟨0, 10, 1000, 2, 1⟩ (fun _ => true)
        [AudioEvent.block [1], AudioEvent.block [1, 1, 1]]).2,
      seg.length < (⟨0, 10, 1000, 2, 1⟩ : Config).min_speech_samples := by
  decide

/-- C3 (amended): the forced max-duration flush is NOT subject to the
minimum-duration gate: while accumulating, when the silence check does not
fire and the appended chunk reaches `max_chunk_samples`, the segment is
dispatched whenever encoding succeeds, with no condition on
`min_speech_samples` (so under exotic configurations with min > max a
segment shorter than the minimum is dispatched). -/
theorem max_flush_skips_min_gate (cfg : Config) (encodeOk : List Int → Bool)
    (st : SegState) (b : List Int) (hsp : st.in_speech = true)
    (hsil : silNext cfg st b < cfg.silence_duration_samples)
    (hlen : cfg.max_chunk_samples ≤ (st.current_chunk ++ b).length)
    (henc : encodeOk (st.current_chunk ++ b) = true) :
    stepBlock cfg encodeOk st b = (resetState, [st.current_chunk ++ b]) := by
  unfold stepBlock
  rw [if_neg (by rw [hsp]; simp), if_neg (by omega)]
  unfold maxCheck
  simp only
  rw [if_pos hlen, if_pos henc]

/-- C3 witness: `max_flush_skips_min_gate` applied in a configuration with
min 10 > max 2, dispatching a 4-sample segment. -/
theorem max_flush_skips_min_gate_witness :
    ((⟨true, [1], 0⟩ : SegState).in_speech = true ∧
      silNext ⟨0, 10, 1000, 2, 1⟩ ⟨true, [1], 0⟩ [1, 1, 1] <
        (⟨0, 10, 1000, 2, 1⟩ : Config).silence_duration_samples ∧
      (⟨0, 10, 1000, 2, 1⟩ : Config).max_chunk_samples ≤
        (([1] : List Int) ++ [1, 1, 1]).length ∧
      (([1] : List Int) ++ [1, 1, 1]).length <
        (⟨0, 10, 1000, 2, 1⟩ : Config).min_speech_samples) ∧
    stepBlock ⟨0, 10, 1000, 2, 1⟩ (fun _ => true) ⟨true, [1], 0⟩ [1, 1, 1] =
      (resetState, [([1] : List Int) ++ [1, 1, 1]]) :=
  ⟨⟨by decide, by decide, by decide, by decide⟩,
    max_flush_skips_min_gate ⟨0, 10, 1000, 2, 1⟩ (fun _ => true) ⟨true, [1], 0⟩
      [1, 1, 1] (by decide) (by decide) (by decide) (by decide)⟩

/-- C2 witness: `pending_length_invariant` applied to a concrete run. -/
theorem pending_length_invariant_witness :
    BlockBound 3 [AudioEvent.block [1, 1, 1]] ∧
    (run ⟨0, 0, 1000, 2, 1⟩ (fun _ => true)
        [AudioEvent.block [1, 1, 1]]).1.current_chunk.length ≤
      max ((⟨0, 0, 1000, 2, 1⟩ : Config).max_chunk_samples - 1) 3 :=
  ⟨by decide,
    (pending_length_invariant ⟨0, 0, 1000, 2, 1⟩ (fun _ => true) 3
      [AudioEvent.block [1, 1, 1]] (by decide)).1⟩

/-- C5: the block-transition function follows the spec's rules: in Idle a
loud block enters Accumulating with the block appended and quiet counter
zero, and a quiet block is discarded; in Accumulating (when no finalize
fires) the block is appended unconditionally and the quiet counter is reset
to zero on a loud block and increased by the block's sample count on a quiet
one. -/
theorem stepBlock_transitions (cfg : Config) (encodeOk : List Int → Bool)
    (st : SegState) (b : List Int) :
    (st.in_speech = false → rmsGeThreshold b cfg.energy_threshold = true →
      stepBlock cfg encodeOk st b = (⟨true, st.current_chunk ++ b, 0⟩, [])) ∧
    (st.in_speech = false → rmsGeThreshold b cfg.energy_threshold = false →
      stepBlock cfg encodeOk st b = (st, [])) ∧
    (st.in_speech = true → rmsGeThreshold b cfg.energy_threshold = true →
      0 < cfg.silence_duration_samples →
      (st.current_chunk ++ b).length < cfg.max_chunk_samples →
      stepBlock cfg encodeOk st b = (⟨true, st.current_chunk ++ b, 0⟩, [])) ∧
    (st.in_speech = true → rmsGeThreshold b cfg.energy_threshold = false →
      st.silence_samples + b.length < cfg.silence_duration_samples →
      (st.current_chunk ++ b).length < cfg.max_chunk_samples →
      stepBlock cfg encodeOk st b =
        (⟨true, st.current_chunk ++ b, st.silence_samples + b.length⟩, [])) := by
  refine ⟨?_, ?_, ?_, ?_⟩
  · intro h1 h2
    simp [stepBlock, h1, h2]
  · intro h1 h2
    simp [stepBlock, h1, h2]
  · intro h1 h2 hs hm
    have h1' : ¬ st.in_speech = false := by rw [h1]; simp
    have hsil : silNext cfg st b = 0 := by simp [silNext, h2]
    have hns : ¬ silNext cfg st b ≥ cfg.silence_duration_samples := by omega
    have hnm : ¬ (st.current_chunk ++ b).length ≥ cfg.max_chunk_samples := by
      omega
    unfold stepBlock
    rw [if_neg h1', if_neg hns]
    unfold maxCheck
    rw [hsil]
    dsimp only
    rw [if_neg hnm]
  · intro h1 h2 hs hm
    have h1' : ¬ st.in_speech = false := by rw [h1]; simp
    have hsil : silNext cfg st b = st.silence_samples + b.length := by
      simp [silNext, h2]
    have hns : ¬ silNext cfg st b ≥ cfg.silence_duration_samples := by omega
    have hnm : ¬ (st.current_chunk ++ b).length ≥ cfg.max_chunk_samples := by
      omega
    unfold stepBlock
    rw [if_neg h1', if_neg hns]
    unfold maxCheck
    rw [hsil]
    dsimp only
    rw [if_neg hnm]

/-- C5 witness: all four transition rules exercised at concrete inputs with
threshold 1: a loud block from Idle, a quiet block from Idle, a loud block
while Accumulating, and a quiet block while Accumulating. -/
theorem stepBlock_transitions_witness :
    (stepBlock ⟨1, 4, 100, 100, 1⟩ (fun _ => true) ⟨false, [], 0⟩ [3, 3] =
      (⟨true, [3, 3], 0⟩, [])) ∧
    (stepBlock ⟨1, 4, 100, 100, 1⟩ (fun _ => true) ⟨false, [], 0⟩ [0, 0] =
      (⟨false, [], 0⟩, [])) ∧
    (stepBlock ⟨1, 4, 100, 100, 1⟩ (fun _ => true) ⟨true, [3, 3], 5⟩ [3, 3] =
      (⟨true, [3, 3, 3, 3], 0⟩, [])) ∧
    (stepBlock ⟨1, 4, 100, 100, 1⟩ (fun _ => true) ⟨true, [3, 3], 5⟩ [0, 0] =
      (⟨true, [3, 3, 0, 0], 7⟩, [])) :=
  ⟨(stepBlock_transitions ⟨1, 4, 100, 100, 1⟩ (fun _ => true) ⟨false, [], 0⟩
      [3, 3]).1 (by decide) (by decide),
    (stepBlock_transitions ⟨1, 4, 100, 100, 1⟩ (fun _ => true) ⟨false, [], 0⟩
      [0, 0]).2.1 (by decide) (by decide),
    (stepBlock_transitions ⟨1, 4, 100, 100, 1⟩ (fun _ => true) ⟨true, [3, 3], 5⟩
      [3, 3]).2.2.1 (by decide) (by decide) (by decide) (by decide),
    (stepBlock_transitions ⟨1, 4, 100, 100, 1⟩ (fun _ => true) ⟨true, [3, 3], 5⟩
      [0, 0]).2.2.2 (by decide) (by decide) (by decide) (by decide)⟩

/-- C6: an idle tick while Idle is a no-op and idempotently so (any number of
ticks from Idle leaves the state unchanged and emits nothing); an idle tick
while Accumulating adds `silence_increment` to the quiet counter and runs
the silence-finalize check: below the silence bound the counter is just
advanced, at or above it the pending segment is dispatched when long enough
and encodable, and discarded when shorter than the minimum. -/
theorem stepTick_spec (cfg : Config) (encodeOk : List Int → Bool)
    (st : SegState) :
    (st.in_speech = false → stepTick cfg encodeOk st = (st, [])) ∧
    (st.in_speech = false → ∀ n : Nat,
      runFrom cfg encodeOk st (List.replicate n AudioEvent.tick) = (st, [])) ∧
    (st.in_speech = true →
      st.silence_samples + cfg.silence_increment < cfg.silence_duration_samples →
      stepTick cfg encodeOk st =
        (⟨true, st.current_chunk, st.silence_samples + cfg.silence_increment⟩, [])) ∧
    (st.in_speech = true →
      cfg.silence_duration_samples ≤ st.silence_samples + cfg.silence_increment →
      cfg.min_speech_samples ≤ st.current_chunk.length →
      encodeOk st.current_chunk = true →
      stepTick cfg encodeOk st = (resetState, [st.current_chunk])) ∧
    (st.in_speech = true →
      cfg.silence_duration_samples ≤ st.silence_samples + cfg.silence_increment →
      st.current_chunk.length < cfg.min_speech_samples →
      stepTick cfg encodeOk st = (resetState, [])) := by
  have hidle : st.in_speech = false → stepTick cfg encodeOk st = (st, []) := by
    intro h
    simp [stepTick, h]
  refine ⟨hidle, ?_, ?_, ?_, ?_⟩
  · intro h n
    induction n with
    | zero => rfl
    | succ n ih =>
      rw [List.replicate_succ]
      simp only [runFrom]
      rw [hidle h]
      simpa using ih
  · intro h1 hs
    have hns : ¬ st.silence_samples + cfg.silence_increment ≥
        cfg.silence_duration_samples := by omega
    simp [stepTick, h1, hns]
  · intro h1 hs hm henc
    simp [stepTick, h1, hs, hm, henc]
  · intro h1 hs hm
    have hnm : ¬ st.current_chunk.length ≥ cfg.min_speech_samples := by omega
    simp [stepTick, h1, hs, hnm]

/-- C6 witness: the tick rules exercised at concrete states: three ticks
from Idle are a no-op; while accumulating, a tick below the silence bound
only advances the counter, and ticks reaching the bound dispatch a
long-enough chunk and discard a short one. -/
theorem stepTick_spec_witness :
    (runFrom ⟨1, 2, 5, 100, 2⟩ (fun _ => true) ⟨false, [], 0⟩
      (List.replicate 3 AudioEvent.tick) = (⟨false, [], 0⟩, [])) ∧
    (stepTick ⟨1, 2, 5, 100, 2⟩ (fun _ => true) ⟨true, [3, 3], 1⟩ =
      (⟨true, [3, 3], 3⟩, [])) ∧
    (stepTick ⟨1, 2, 5, 100, 2⟩ (fun _ => true) ⟨true, [3, 3], 4⟩ =
      (resetState, [[3, 3]])) ∧
    (stepTick ⟨1, 2, 5, 100, 2⟩ (fun _ => true) ⟨true, [3], 4⟩ =
      (resetState, [])) :=
  ⟨(stepTick_spec ⟨1, 2, 5, 100, 2⟩ (fun _ => true) ⟨false, [], 0⟩).2.1
      (by decide) 3,
    (stepTick_spec ⟨1, 2, 5, 100, 2⟩ (fun _ => true) ⟨true, [3, 3], 1⟩).2.2.1
      (by decide) (by decide),
    (stepTick_spec ⟨1, 2, 5, 100, 2⟩ (fun _ => true) ⟨true, [3, 3], 4⟩).2.2.2.1
      (by decide) (by decide) (by decide) (by decide),
    (stepTick_spec ⟨1, 2, 5, 100, 2⟩ (fun _ => true) ⟨true, [3], 4⟩).2.2.2.2
      (by decide) (by decide) (by decide)⟩

/-- C7: on upstream channel closure the loop terminates at once without
emitting anything — whatever the current state (in particular Accumulating
with a non-empty pending chunk), the pending data is discarded rather than
flushed, and no later event is processed. -/
theorem closure_discards_pending (cfg : Config) (encodeOk : List Int → Bool) :
    (∀ (st : SegState) (rest : List AudioEvent),
      runFrom cfg encodeOk st (AudioEvent.closed :: rest) = (st, [])) ∧
    (∀ (st : SegState) (evs rest : List AudioEvent),
      AudioEvent.closed ∉ evs →
      runFrom cfg encodeOk st (evs ++ AudioEvent.closed :: rest) =
        runFrom cfg encodeOk st evs) := by
  constructor
  · intro st rest
    rfl
  · intro st evs rest
    induction evs generalizing st with
    | nil =>
      intro _
      rfl
    | cons e evs ih =>
      intro h
      have h' : AudioEvent.closed ∉ evs := fun hm =>
        h (List.mem_cons_of_mem _ hm)
      cases e with
      | closed => exact absurd (List.mem_cons_self _ _) h
      | block b =>
        simp only [List.cons_append, runFrom, List.append_eq]
        rw [ih _ h']
      | tick =>
        simp only [List.cons_append, runFrom, List.append_eq]
        rw [ih _ h']

/-- C7 witness: `closure_discards_pending` applied with a non-empty pending
chunk while Accumulating: closure emits nothing and ignores later events. -/
theorem closure_discards_pending_witness :
    AudioEvent.closed ∉ ([AudioEvent.tick] : List AudioEvent) ∧
    runFrom ⟨0, 0, 1000, 100, 1⟩ (fun _ => true) ⟨true, [5, 5], 7⟩
        ([AudioEvent.tick] ++ AudioEvent.closed :: [AudioEvent.tick]) =
      runFrom ⟨0, 0, 1000, 100, 1⟩ (fun _ => true) ⟨true, [5, 5], 7⟩
        [AudioEvent.tick] ∧
    runFrom ⟨0, 0, 1000, 100, 1⟩ (fun _ => true) ⟨true, [5, 5], 7⟩
        (AudioEvent.closed :: [AudioEvent.tick]) = (⟨true, [5, 5], 7⟩, []) :=
  ⟨by decide,
    (closure_discards_pending ⟨0, 0, 1000, 100, 1⟩ (fun _ => true)).2
      ⟨true, [5, 5], 7⟩ [AudioEvent.tick] [AudioEvent.tick] (by decide),
    (closure_discards_pending ⟨0, 0, 1000, 100, 1⟩ (fun _ => true)).1
      ⟨true, [5, 5], 7⟩ [AudioEvent.tick]⟩

/-- C8: when encoding a finalized segment fails, the segment is dropped
(nothing emitted) and the machine resets to Idle — pending chunk cleared,
speech flag false, quiet counter zero — and the loop continues processing
the remaining input.  This holds on the silence-finalize path, the forced
max-duration path, and the tick-finalize path. -/
theorem encode_failure_resets (cfg : Config) (encodeOk : List Int → Bool)
    (st : SegState) (b : List Int) (rest : List AudioEvent) :
    (st.in_speech = true →
      cfg.silence_duration_samples ≤ silNext cfg st b →
      cfg.min_speech_samples ≤ (st.current_chunk ++ b).length →
      encodeOk (st.current_chunk ++ b) = false →
      stepBlock cfg encodeOk st b = (resetState, []) ∧
      runFrom cfg encodeOk st (AudioEvent.block b :: rest) =
        runFrom cfg encodeOk resetState rest) ∧
    (st.in_speech = true →
      silNext cfg st b < cfg.silence_duration_samples →
      cfg.max_chunk_samples ≤ (st.current_chunk ++ b).length →
      encodeOk (st.current_chunk ++ b) = false →
      stepBlock cfg encodeOk st b = (resetState, []) ∧
      runFrom cfg encodeOk st (AudioEvent.block b :: rest) =
        runFrom cfg encodeOk resetState rest) ∧
    (st.in_speech = true →
      cfg.silence_duration_samples ≤ st.silence_samples + cfg.silence_increment →
      cfg.min_speech_samples ≤ st.current_chunk.length →
      encodeOk st.current_chunk = false →
      stepTick cfg encodeOk st = (resetState, []) ∧
      runFrom cfg encodeOk st (AudioEvent.tick :: rest) =
        runFrom cfg encodeOk resetState rest) := by
  refine ⟨?_, ?_, ?_⟩
  · intro h1 hs hm henc
    have h1' : ¬ st.in_speech = false := by rw [h1]; simp
    have hstep : stepBlock cfg encodeOk st b = (resetState, []) := by
      unfold stepBlock
      rw [if_neg h1', if_pos hs, if_pos hm, if_neg (by simp [henc])]
    refine ⟨hstep, ?_⟩
    simp only [runFrom]
    rw [hstep]
    simp
  · intro h1 hs hm henc
    have h1' : ¬ st.in_speech = false := by rw [h1]; simp
    have hns : ¬ silNext cfg st b ≥ cfg.silence_duration_samples := by omega
    have hstep : stepBlock cfg encodeOk st b = (resetState, []) := by
      unfold stepBlock
      rw [if_neg h1', if_neg hns]
      unfold maxCheck
      dsimp only
      rw [if_pos hm, if_neg (by simp [henc])]
    refine ⟨hstep, ?_⟩
    simp only [runFrom]
    rw [hstep]
    simp
  · intro h1 hs hm henc
    have hstep : stepTick cfg encodeOk st = (resetState, []) := by
      unfold stepTick
      rw [if_pos h1, if_pos hs, if_pos hm, if_neg (by simp [henc])]
    refine ⟨hstep, ?_⟩
    simp only [runFrom]
    rw [hstep]
    simp

/-- C8 witness: a failing encoder on the silence-finalize path at a concrete
state: the segment is dropped, the state resets to Idle, and processing
continues with the rest of the input. -/
theorem encode_failure_resets_witness :
    ((⟨true, [3, 3], 4⟩ : SegState).in_speech = true ∧
      (⟨1, 2, 5, 100, 2⟩ : Config).silence_duration_samples ≤
        silNext ⟨1, 2, 5, 100, 2⟩ ⟨true, [3, 3], 4⟩ [0, 0] ∧
      (⟨1, 2, 5, 100, 2⟩ : Config).min_speech_samples ≤
        (([3, 3] : List Int) ++ [0, 0]).length ∧
      (fun _ : List Int => false) (([3, 3] : List Int) ++ [0, 0]) = false) ∧
    stepBlock ⟨1, 2, 5, 100, 2⟩ (fun _ => false) ⟨true, [3, 3], 4⟩ [0, 0] =
      (resetState, []) ∧
    runFrom ⟨1, 2, 5, 100, 2⟩ (fun _ => false) ⟨true, [3, 3], 4⟩
        (AudioEvent.block [0, 0] :: [AudioEvent.tick]) =
      runFrom ⟨1, 2, 5, 100, 2⟩ (fun _ => false) resetState [AudioEvent.tick] :=
  ⟨⟨by decide, by decide, by decide, by decide⟩,
    (encode_failure_resets ⟨1, 2, 5, 100, 2⟩ (fun _ => false) ⟨true, [3, 3], 4⟩
      [0, 0] [AudioEvent.tick]).1 (by decide) (by decide) (by decide)
      (by decide)⟩

/-- C4: the energy estimator returns the square root of the mean of the
squared sample magnitudes, returns zero on the empty block, and is
non-negative on every block. -/
theorem compute_rms_spec :
    compute_rms [] = 0 ∧
    (∀ b : List Int,
      compute_rms b = Real.sqrt ((sumSq b : ℝ) / (b.length : ℝ))) ∧
    (∀ b : List Int, 0 ≤ compute_rms b) := by
  refine ⟨by simp [compute_rms], ?_, ?_⟩
  · intro b
    unfold compute_rms
    split
    · rename_i h
      subst h
      simp [sumSq]
    · rfl
  · intro b
    unfold compute_rms
    split
    · exact le_refl 0
    · exact Real.sqrt_nonneg _

/-- C9: the post-filter discards the boilerplate phrase, the too-short input
and the digits-only input, passes the normal sentence through after trimming,
and in general returns `none` exactly when the trimmed input is empty,
shorter than 3 bytes, wholly non-alphabetic, or equal to a denylist phrase
case-insensitively. -/
theorem filter_transcription_cases :
    filter_transcription "Thank you for watching!" = none ∧
    filter_transcription "ok" = none ∧
    filter_transcription "123456" = none ∧
    filter_transcription "Turn left at the light" = some "Turn left at the light" ∧
    ∀ s : String, filter_transcription s = none ↔
      (rustTrim s.data = [] ∨ utf8Len (rustTrim s.data) < 3 ∨
       (∀ c ∈ rustTrim s.data, c.isAlpha = false) ∨
       ∃ q ∈ unwantedPhrases, eqIgnoreAsciiCase (rustTrim s.data) q = true) := by
  refine ⟨by decide, by decide, by decide, by decide, fun s => ?_⟩
  unfold filter_transcription
  split_ifs with h1 h2 h3
  · simp only [List.isEmpty_iff] at h1
    refine ⟨fun _ => ?_, fun _ => rfl⟩
    rcases h1 with h | h
    · exact Or.inl h
    · exact Or.inr (Or.inl h)
  · simp only [List.all_eq_true, Bool.not_eq_true'] at h2
    exact ⟨fun _ => Or.inr (Or.inr (Or.inl h2)), fun _ => rfl⟩
  · rw [List.any_eq_true] at h3
    exact ⟨fun _ => Or.inr (Or.inr (Or.inr h3)), fun _ => rfl⟩
  · constructor
    · intro h
      exact absurd h (by simp)
    · simp only [List.isEmpty_iff] at h1
      push_neg at h1
      rintro (h | h | h | h)
      · exact absurd h h1.1
      · exact absurd h (by omega)
      · refine absurd ?_ h2
        simp only [List.all_eq_true, Bool.not_eq_true']
        exact h
      · refine absurd ?_ h3
        rw [List.any_eq_true]
        exact h

/-- C10: whenever the post-filter accepts an input, the returned string is
exactly the input with leading and trailing whitespace removed, and the
post-filter is idempotent on its own output. -/
theorem filter_transcription_accepts_trim :
    ∀ s t : String, filter_transcription s = some t →
      t = String.mk (rustTrim s.data) ∧ filter_transcription t = some t := by
  intro s t h
  unfold filter_transcription at h
  split_ifs at h with h1 h2 h3
  obtain rfl : t = String.mk (rustTrim s.data) := (Option.some.inj h).symm
  refine ⟨rfl, ?_⟩
  unfold filter_transcription
  have hd : (String.mk (rustTrim s.data)).data = rustTrim s.data := rfl
  rw [hd, rustTrim_idem]
  rw [if_neg h1, if_neg h2, if_neg h3]

/-- C10 witness: `filter_transcription_accepts_trim` applied to an input
with surrounding whitespace: the accepted output is the trimmed input, and
filtering it again returns it unchanged. -/
theorem filter_transcription_accepts_trim_witness :
    filter_transcription " Turn left at the light " =
      some "Turn left at the light" ∧
    ("Turn left at the light" : String) =
      String.mk (rustTrim " Turn left at the light ".data) ∧
    filter_transcription "Turn left at the light" =
      some "Turn left at the light" :=
  ⟨by decide,
    filter_transcription_accepts_trim " Turn left at the light "
      "Turn left at the light" (by decide)⟩
